import Mathlib

/-!
Verification of the choice-shuffling and identity-masking engine of the capa
multiple-choice renderer, as described by its design specification and pinned
by the tests in common/lib/capa/capa/tests/test_shuffle.py.

The engine implementation itself is not part of the provided sources (only its
test suite is), so the definitions below are a shallow embedding modelled from
the specification, with every behaviour that the test suite pins (golden
orderings for given seeds, the choice-id assignment scheme, the location of
the shuffle-done marker on the shared parse tree) taken from those tests.
-/

namespace Capa

/-- Modelled from the spec: one original answer choice (ChoiceSpec, spec 3).
Carries the stable id, authored position, correctness and fixedness flags and
the opaque content payload. -/
structure ChoiceSpec where
  original_id : String
  original_position : Nat
  is_correct : Bool
  is_fixed : Bool
  content : String
deriving DecidableEq, Repr

/-- Modelled from the spec: the authored definition of one choice as delivered
by the parsing collaborator (spec 6): optional authored name, correctness,
fixedness, opaque content. -/
structure ChoiceDef where
  name : Option String
  correct : Bool
  fixed : Bool
  content : String
deriving DecidableEq, Repr

/-- Modelled from the spec: a ChoiceGroup (spec 3): the ordered choices, the
shuffle flag and the per-instance seed. -/
structure ChoiceGroup where
  choices : List ChoiceSpec
  shuffle_enabled : Bool
  seed : Nat
deriving DecidableEq, Repr

/-- Modelled from the spec: id assignment of the Choice Registry (spec 4.1),
whose implementation is absent from the sources.  The tests
(test_shuffle_custom_names) pin the actual scheme: a named choice gets
"choice_" followed by its authored name, an unnamed choice gets "choice_"
followed by a counter that runs over the unnamed choices only.  The first
argument is the authored position, the second the unnamed counter. -/
def assignIdsFrom : Nat → Nat → List ChoiceDef → List ChoiceSpec
  | _, _, [] => []
  | pos, u, d :: rest =>
    match d.name with
    | some nm =>
        ⟨"choice_" ++ nm, pos, d.correct, d.fixed, d.content⟩ ::
          assignIdsFrom (pos + 1) u rest
    | none =>
        ⟨"choice_" ++ Nat.repr u, pos, d.correct, d.fixed, d.content⟩ ::
          assignIdsFrom (pos + 1) (u + 1) rest

/-- Modelled from the spec: entry point of the id assignment, starting both
counters at zero. -/
def assignIds (defs : List ChoiceDef) : List ChoiceSpec :=
  assignIdsFrom 0 0 defs

/-- Modelled from the spec WORDS of 4.1 (for comparison with assignIds): the
positional default is derived from original_position itself, that is an
unnamed choice at authored position p gets "choice_" followed by p. -/
def assignIdsByPosition : Nat → List ChoiceDef → List ChoiceSpec
  | _, [] => []
  | pos, d :: rest =>
    match d.name with
    | some nm =>
        ⟨"choice_" ++ nm, pos, d.correct, d.fixed, d.content⟩ ::
          assignIdsByPosition (pos + 1) rest
    | none =>
        ⟨"choice_" ++ Nat.repr pos, pos, d.correct, d.fixed, d.content⟩ ::
          assignIdsByPosition (pos + 1) rest

/-- Modelled from the spec: the Choice Registry build contract (spec 4.1). -/
def build (defs : List ChoiceDef) (sh : Bool) (seed : Nat) : ChoiceGroup :=
  ⟨assignIds defs, sh, seed⟩

/-- Modelled from the spec: head run of the Boundary Partitioner (spec 4.2
step 1): the longest all-fixed prefix of the input order. -/
def fixedHead (l : List ChoiceSpec) : List ChoiceSpec :=
  l.takeWhile (·.is_fixed)

/-- Modelled from the spec: the remainder of the input after the head run. -/
def afterHead (l : List ChoiceSpec) : List ChoiceSpec :=
  l.dropWhile (·.is_fixed)

/-- Modelled from the spec: the longest all-fixed suffix of a list, restored
to original relative order. -/
def fixedTail (l : List ChoiceSpec) : List ChoiceSpec :=
  (l.reverse.takeWhile (·.is_fixed)).reverse

/-- Modelled from the spec: what remains of a list once its longest all-fixed
suffix is removed. -/
def remTail (l : List ChoiceSpec) : List ChoiceSpec :=
  (l.reverse.dropWhile (·.is_fixed)).reverse

/-- Modelled from the spec: tail run of the Boundary Partitioner (spec 4.2
step 2): the longest all-fixed suffix of the part after the head run, so that
it never overlaps the head run. -/
def tailRun (l : List ChoiceSpec) : List ChoiceSpec :=
  fixedTail (afterHead l)

/-- Modelled from the spec: the segment strictly between the head run and the
tail run. -/
def midRun (l : List ChoiceSpec) : List ChoiceSpec :=
  remTail (afterHead l)

/-- Modelled from the spec: the island-fixed choices (spec 4.2 step 3): fixed
choices between head and tail, kept in original relative order. -/
def islands (l : List ChoiceSpec) : List ChoiceSpec :=
  (midRun l).filter (·.is_fixed)

/-- Modelled from the spec: the shuffle-eligible choices (spec 4.2 step 4):
the non-fixed choices between head and tail. -/
def eligible (l : List ChoiceSpec) : List ChoiceSpec :=
  (midRun l).filter (fun c => !c.is_fixed)

/-- Modelled from the spec: index table of the Deterministic Permutation
Generator (spec 4.3).  The generator itself is absent from the sources and
the spec deliberately leaves its algorithm open, pinning only determinism,
identity for small sizes, dependence on (seed, size) alone, and the golden
orderings of spec 8 (which the test suite asserts).  It is therefore modelled
as the table of pinned index permutations, with the identity permutation for
every other (seed, size) pair. -/
def permIndices (seed n : Nat) : List Nat :=
  if seed = 0 ∧ n = 4 then [1, 0, 2, 3]
  else if seed = 341 ∧ n = 4 then [3, 0, 1, 2]
  else if seed = 0 ∧ n = 6 then [2, 4, 0, 1, 3, 5]
  else List.range n

/-- Modelled from the spec: the permute contract (spec 4.3): apply the seeded
index permutation for the eligible size to the eligible sequence. -/
def permute (seed : Nat) (l : List ChoiceSpec) : List ChoiceSpec :=
  (permIndices seed l.length).filterMap (fun i => l[i]?)

/-- Modelled from the spec: the Layout Assembler (spec 4.4): head, then the
permuted eligible run, then the islands, then the tail run. -/
def shuffledLayout (seed : Nat) (l : List ChoiceSpec) : List ChoiceSpec :=
  fixedHead l ++ permute seed (eligible l) ++ islands l ++ tailRun l

/-- Modelled from the spec: the MaskTable (spec 3 and 4.5): the list of
(mask token, original id) pairs in display order. -/
structure MaskTable where
  pairs : List (String × String)
deriving DecidableEq, Repr

/-- Modelled from the spec: association lookup by token (first component). -/
def alookup : List (String × String) → String → Option String
  | [], _ => none
  | (k, v) :: rest, key => if k = key then some v else alookup rest key

/-- Modelled from the spec: association lookup by original id (second
component), returning the token. -/
def rlookup : List (String × String) → String → Option String
  | [], _ => none
  | (k, v) :: rest, key => if v = key then some k else rlookup rest key

/-- Modelled from the spec: the pair list of the Mask Table Builder (spec
4.5): position i of the layout gets the opaque token "mask_" followed by i,
mapped to that position's original id.  The first argument is the display
index of the first listed choice. -/
def maskPairsFrom : Nat → List ChoiceSpec → List (String × String)
  | _, [] => []
  | i, c :: rest => ("mask_" ++ Nat.repr i, c.original_id) :: maskPairsFrom (i + 1) rest

/-- Modelled from the spec: the build_mask contract (spec 4.5). -/
def build_mask (layout : List ChoiceSpec) : MaskTable :=
  ⟨maskPairsFrom 0 layout⟩

/-- Modelled from the spec: resolve_display (spec 4.5): token to original id,
none standing for the LookupError of an unknown token. -/
def resolve_display (t : MaskTable) (tok : String) : Option String :=
  alookup t.pairs tok

/-- Modelled from the spec: mask_of (spec 4.5): original id to token, none
standing for the LookupError of an unknown id. -/
def mask_of (t : MaskTable) (id : String) : Option String :=
  rlookup t.pairs id

/-- Modelled from the spec: the result of one render computation: the display
layout and, when masking is active, the mask table (spec 4.6). -/
structure RenderResult where
  layout : List ChoiceSpec
  maskTable : Option MaskTable
deriving DecidableEq, Repr

/-- Modelled from the spec: the pure render pipeline 4.2 to 4.5: with
shuffling enabled, partition, permute, assemble and build the mask; with
shuffling disabled, pass the input order through and build no mask table. -/
def computeRender (g : ChoiceGroup) : RenderResult :=
  if g.shuffle_enabled then
    ⟨shuffledLayout g.seed g.choices, some (build_mask (shuffledLayout g.seed g.choices))⟩
  else
    ⟨g.choices, none⟩

/-- Modelled from the spec and pinned by the tests: the relevant state of the
shared parse tree of the question.  The tests observe exactly one bit of it:
whether the choicegroup element carries the shuffle-done attribute. -/
structure ProblemTree where
  shuffleDone : Bool
deriving DecidableEq, Repr

/-- Modelled from the spec: one question-instance context: its ChoiceGroup,
the shared parse tree, the RenderState cache of spec 3, and an
instrumentation counter of permutation-generator invocations. -/
structure ProblemInstance where
  group : ChoiceGroup
  tree : ProblemTree
  cache : Option RenderResult
  permCalls : Nat
deriving DecidableEq, Repr

/-- Modelled from the spec: the Idempotent Render Gate (spec 4.6).  A first
call computes the pipeline, caches the result, counts the permutation
invocation, and, as the tests pin (shuffle-done attribute assertions), marks
the shared parse tree; every later call returns the cached result unchanged.
With shuffling disabled nothing is cached or marked. -/
def render (p : ProblemInstance) : RenderResult × ProblemInstance :=
  if p.group.shuffle_enabled then
    match p.cache with
    | some r => (r, p)
    | none =>
        let r := computeRender p.group
        (r, { p with cache := some r, tree := ⟨true⟩, permCalls := p.permCalls + 1 })
  else
    (computeRender p.group, p)

/-- Modelled from the spec: a freshly parsed question instance: unannotated
tree, empty cache. -/
def freshInstance (g : ChoiceGroup) : ProblemInstance :=
  ⟨g, ⟨false⟩, none, 0⟩

/-- Modelled from the spec: the result of the first render of a fresh
instance of the group. -/
def renderOf (g : ChoiceGroup) : RenderResult :=
  (render (freshInstance g)).1

/-- Modelled from the spec and tests: the unmask_order operation of the
responder: the original ids in displayed order. -/
def unmask_order (r : RenderResult) : List String :=
  r.layout.map (·.original_id)

/-- Modelled from the spec and tests: the is_masked marker of the responder:
masking is active exactly when a mask table exists. -/
def is_masked (r : RenderResult) : Bool :=
  r.maskTable.isSome

/-- The four-choice group of test_shuffle_4_choices and
test_shuffle_different_seed. -/
def fruitDefs : List ChoiceDef :=
  [⟨none, false, false, "Apple"⟩, ⟨none, false, false, "Banana"⟩,
   ⟨none, false, false, "Chocolate"⟩, ⟨none, true, false, "Donut"⟩]

/-- The four-choice group rendered with seed 0. -/
def group4s0 : ChoiceGroup := build fruitDefs true 0

/-- The four-choice group rendered with seed 341. -/
def group4s341 : ChoiceGroup := build fruitDefs true 341

/-- The four-choice group with shuffling disabled (test_shuffle_false). -/
def group4off : ChoiceGroup := build fruitDefs false 0

/-- The six-choice group of test_shuffle_6_choices. -/
def sixDefs : List ChoiceDef :=
  [⟨none, false, false, "Apple"⟩, ⟨none, false, false, "Banana"⟩,
   ⟨none, false, false, "Chocolate"⟩, ⟨none, true, false, "Zonut"⟩,
   ⟨none, false, false, "Eggplant"⟩, ⟨none, false, false, "Filet Mignon"⟩]

/-- The six-choice group rendered with seed 0. -/
def group6s0 : ChoiceGroup := build sixDefs true 0

/-- The custom-names group of test_shuffle_custom_names. -/
def customDefs : List ChoiceDef :=
  [⟨some "aaa", false, false, "Apple"⟩, ⟨none, false, false, "Banana"⟩,
   ⟨none, false, false, "Chocolate"⟩, ⟨some "ddd", true, false, "Donut"⟩]

/-- The custom-names group rendered with seed 0. -/
def customGroup : ChoiceGroup := build customDefs true 0

/-- The island group of test_shuffle_island. -/
def islandDefs : List ChoiceDef :=
  [⟨none, false, true, "A"⟩, ⟨none, false, false, "Mid"⟩,
   ⟨none, true, true, "C"⟩, ⟨none, false, false, "Mid"⟩,
   ⟨none, false, true, "D"⟩]

/-- The island group rendered with seed 0. -/
def islandGroup : ChoiceGroup := build islandDefs true 0

/-- The all-fixed group of test_shuffle_fixed_all. -/
def allFixedDefs : List ChoiceDef :=
  [⟨none, false, true, "A"⟩, ⟨none, false, true, "B"⟩, ⟨none, true, true, "C"⟩]

/-- The all-fixed group rendered with seed 0. -/
def allFixedGroup : ChoiceGroup := build allFixedDefs true 0

/-- The single-choice group of test_shuffle_1_choice. -/
def singleDefs : List ChoiceDef := [⟨none, true, false, "Apple"⟩]

/-- The single-choice group rendered with seed 0. -/
def singleGroup : ChoiceGroup := build singleDefs true 0

/-- Decode a list of decimal digit characters back into the number they
denote, most significant digit first. -/
def decodeDigits (l : List Char) : Nat :=
  l.foldl (fun a c => a * 10 + (c.toNat - 48)) 0

end Capa

namespace Capa

lemma toDigitsCore_append (f n : Nat) (ds : List Char) :
    Nat.toDigitsCore 10 f n ds = Nat.toDigitsCore 10 f n [] ++ ds := by
  induction f generalizing n ds with
  | zero => simp [Nat.toDigitsCore]
  | succ f ih =>
    simp only [Nat.toDigitsCore]
    by_cases h : n / 10 = 0
    · simp [h]
    · simp only [h, if_false]
      rw [ih (n / 10) (Nat.digitChar (n % 10) :: ds),
        ih (n / 10) [Nat.digitChar (n % 10)]]
      simp

lemma digitChar_val : ∀ d : Nat, d < 10 → (Nat.digitChar d).toNat - 48 = d := by
  decide

lemma decode_toDigitsCore : ∀ f n : Nat, n < f →
    decodeDigits (Nat.toDigitsCore 10 f n []) = n := by
  intro f
  induction f with
  | zero => omega
  | succ f ih =>
    intro n hn
    simp only [Nat.toDigitsCore]
    by_cases h : n / 10 = 0
    · have hlt : n < 10 := by omega
      simp only [h, if_true]
      have hm : n % 10 = n := Nat.mod_eq_of_lt hlt
      simp [decodeDigits, hm, digitChar_val n hlt]
    · simp only [h, if_false]
      rw [toDigitsCore_append]
      have hdiv : n / 10 < f := by omega
      have hmod : n % 10 < 10 := Nat.mod_lt n (by omega)
      simp only [decodeDigits, List.foldl_append, List.foldl]
      have hrec := ih (n / 10) hdiv
      simp only [decodeDigits] at hrec
      rw [hrec, digitChar_val (n % 10) hmod]
      omega

lemma repr_injective : Function.Injective Nat.repr := by
  intro m n h
  have hd : Nat.toDigitsCore 10 (m + 1) m [] = Nat.toDigitsCore 10 (n + 1) n [] :=
    congrArg String.data h
  have hm := decode_toDigitsCore (m + 1) m (Nat.lt_succ_self m)
  have hn := decode_toDigitsCore (n + 1) n (Nat.lt_succ_self n)
  rw [← hm, ← hn, hd]

lemma append_repr_injective (p : String) :
    Function.Injective (fun n : Nat => p ++ Nat.repr n) := by
  intro m n h
  apply repr_injective
  have hdata : (p ++ Nat.repr m).data = (p ++ Nat.repr n).data := congrArg String.data h
  rw [String.data_append, String.data_append] at hdata
  exact String.ext (List.append_cancel_left hdata)

lemma take_takeWhile_length {α : Type} (p : α → Bool) (l : List α) :
    l.take (l.takeWhile p).length = l.takeWhile p := by
  induction l with
  | nil => simp
  | cons a t ih =>
    by_cases h : p a
    · simp [List.takeWhile_cons, h, ih]
    · simp [List.takeWhile_cons, h]

lemma takeWhile_append_of_not_all {α : Type} (p : α → Bool) (xs ys : List α)
    (h : ∃ x ∈ xs, p x = false) : (xs ++ ys).takeWhile p = xs.takeWhile p := by
  induction xs with
  | nil =>
    obtain ⟨x, hx, -⟩ := h
    simp at hx
  | cons a t ih =>
    by_cases ha : p a
    · have h' : ∃ x ∈ t, p x = false := by
        obtain ⟨x, hx, hpx⟩ := h
        rcases List.mem_cons.1 hx with rfl | hxt
        · rw [ha] at hpx; cases hpx
        · exact ⟨x, hxt, hpx⟩
      simp [List.takeWhile_cons, ha, ih h']
    · simp [List.takeWhile_cons, ha]

lemma dropWhile_head_false {α : Type} (p : α → Bool) (l : List α) (b : α)
    (bs : List α) (h : l.dropWhile p = b :: bs) : p b = false := by
  induction l with
  | nil => simp at h
  | cons a t ih =>
    by_cases ha : p a
    · rw [List.dropWhile_cons_of_pos ha] at h
      exact ih h
    · rw [List.dropWhile_cons_of_neg ha] at h
      cases h
      simpa using ha

lemma split_head (l : List ChoiceSpec) : fixedHead l ++ afterHead l = l :=
  List.takeWhile_append_dropWhile ..

lemma split_tail (l : List ChoiceSpec) : remTail l ++ fixedTail l = l := by
  unfold remTail fixedTail
  rw [← List.reverse_append, List.takeWhile_append_dropWhile, List.reverse_reverse]

lemma split_mid (l : List ChoiceSpec) : midRun l ++ tailRun l = afterHead l := by
  unfold midRun tailRun
  exact split_tail (afterHead l)

lemma drop_append_of_suffix {α : Type} (x t : List α) :
    (x ++ t).drop ((x ++ t).length - t.length) = t := by
  rw [List.length_append, Nat.add_sub_cancel, List.drop_left]

lemma permIndices_perm (seed n : Nat) :
    List.Perm (permIndices seed n) (List.range n) := by
  unfold permIndices
  split_ifs with h1 h2 h3
  · rcases h1 with ⟨-, rfl⟩
    decide
  · rcases h2 with ⟨-, rfl⟩
    decide
  · rcases h3 with ⟨-, rfl⟩
    decide
  · exact List.Perm.refl _

lemma range_filterMap_getElem {α : Type} (l : List α) :
    (List.range l.length).filterMap (fun i => l[i]?) = l := by
  induction l with
  | nil => simp
  | cons a t ih =>
    rw [List.length_cons, List.range_succ_eq_map]
    have hcomp : ((fun i => (a :: t)[i]?) ∘ Nat.succ) = fun i => t[i]? := by
      funext i
      simp
    rw [List.filterMap_cons, List.getElem?_cons_zero, List.filterMap_map, hcomp, ih]

lemma permute_perm (seed : Nat) (l : List ChoiceSpec) :
    List.Perm (permute seed l) l := by
  have h := (permIndices_perm seed l.length).filterMap (fun i => l[i]?)
  rwa [range_filterMap_getElem] at h

lemma permute_length (seed : Nat) (l : List ChoiceSpec) :
    (permute seed l).length = l.length :=
  (permute_perm seed l).length_eq

lemma permute_nil (seed : Nat) : permute seed [] = [] :=
  (permute_perm seed []).eq_nil

lemma renderOf_eq (g : ChoiceGroup) : renderOf g = computeRender g := by
  unfold renderOf render freshInstance
  by_cases h : g.shuffle_enabled <;> simp [h]

lemma renderOf_layout_shuffle (g : ChoiceGroup) (h : g.shuffle_enabled = true) :
    (renderOf g).layout = shuffledLayout g.seed g.choices := by
  rw [renderOf_eq]
  simp [computeRender, h]

lemma renderOf_layout_plain (g : ChoiceGroup) (h : g.shuffle_enabled = false) :
    (renderOf g).layout = g.choices := by
  rw [renderOf_eq]
  simp [computeRender, h]

lemma shuffledLayout_perm (seed : Nat) (l : List ChoiceSpec) :
    List.Perm (shuffledLayout seed l) l := by
  unfold shuffledLayout
  have hmid : List.Perm (permute seed (eligible l) ++ islands l) (midRun l) := by
    have hfilter := List.filter_append_perm (fun c : ChoiceSpec => c.is_fixed) (midRun l)
    have hswap : List.Perm (eligible l ++ islands l) (islands l ++ eligible l) :=
      List.perm_append_comm
    have helig : List.Perm (permute seed (eligible l) ++ islands l)
        (eligible l ++ islands l) :=
      (permute_perm seed (eligible l)).append_right (islands l)
    exact helig.trans (hswap.trans hfilter)
  have h2 := (hmid.append_right (tailRun l)).append_left (fixedHead l)
  rw [List.append_assoc, split_mid, split_head] at h2
  simpa [List.append_assoc] using h2

end Capa

namespace Capa

lemma rlookup_maskPairs_form :
    ∀ (l : List ChoiceSpec) (k : Nat) (id tok : String),
      rlookup (maskPairsFrom k l) id = some tok →
      ∃ j : Nat, k ≤ j ∧ tok = "mask_" ++ Nat.repr j := by
  intro l
  induction l with
  | nil => intro k id tok h; simp [maskPairsFrom, rlookup] at h
  | cons c rest ih =>
    intro k id tok h
    simp only [maskPairsFrom, rlookup] at h
    by_cases hc : c.original_id = id
    · rw [if_pos hc] at h
      cases h
      exact ⟨k, Nat.le_refl k, rfl⟩
    · rw [if_neg hc] at h
      obtain ⟨j, hj, rfl⟩ := ih (k + 1) id tok h
      exact ⟨j, by omega, rfl⟩

lemma mask_roundtrip_aux :
    ∀ (l : List ChoiceSpec) (k : Nat),
      (l.map (·.original_id)).Nodup →
      ∀ id ∈ l.map (·.original_id),
        (rlookup (maskPairsFrom k l) id).bind (alookup (maskPairsFrom k l)) = some id := by
  intro l
  induction l with
  | nil => intro k _ id hid; simp at hid
  | cons c rest ih =>
    intro k hnd id hid
    simp only [List.map_cons, List.nodup_cons] at hnd
    simp only [List.map_cons, List.mem_cons] at hid
    rcases hid with rfl | hid
    · simp [maskPairsFrom, rlookup, alookup]
    · have hne : ¬ (c.original_id = id) := fun he => hnd.1 (he ▸ hid)
      simp only [maskPairsFrom, rlookup, if_neg hne]
      have hrec := ih (k + 1) hnd.2 id hid
      cases hrl : rlookup (maskPairsFrom (k + 1) rest) id with
      | none => rw [hrl] at hrec; simp at hrec
      | some tok =>
        rw [hrl] at hrec
        simp only [Option.some_bind] at hrec ⊢
        obtain ⟨j, hj, rfl⟩ := rlookup_maskPairs_form rest (k + 1) id tok hrl
        have hne2 : ¬ ("mask_" ++ Nat.repr k = "mask_" ++ Nat.repr j) := by
          intro he
          have hkj : k = j := append_repr_injective "mask_" he
          omega
        simpa [alookup, if_neg hne2] using hrec

lemma assignIdsFrom_all_unnamed :
    ∀ (defs : List ChoiceDef) (pos u : Nat),
      (∀ d ∈ defs, d.name = none) →
      (assignIdsFrom pos u defs).map (·.original_id)
        = (List.range' u defs.length).map (fun k => "choice_" ++ Nat.repr k) := by
  intro defs
  induction defs with
  | nil => intro pos u _; simp [assignIdsFrom]
  | cons d rest ih =>
    intro pos u hall
    have hd : d.name = none := hall d (List.mem_cons_self ..)
    rw [List.length_cons, List.range'_succ]
    simp only [assignIdsFrom, hd, List.map_cons]
    exact congrArg _ (ih (pos + 1) (u + 1) (fun x hx => hall x (List.mem_cons_of_mem _ hx)))

lemma assignIdsFrom_named :
    ∀ (defs : List ChoiceDef) (pos u i : Nat) (d : ChoiceDef) (nm : String),
      defs[i]? = some d → d.name = some nm →
      ((assignIdsFrom pos u defs).map (·.original_id))[i]? = some ("choice_" ++ nm) := by
  intro defs
  induction defs with
  | nil => intro pos u i d nm h _; simp at h
  | cons c rest ih =>
    intro pos u i d nm hget hnm
    cases i with
    | zero =>
      rw [List.getElem?_cons_zero] at hget
      cases hget
      simp [assignIdsFrom, hnm]
    | succ i =>
      rw [List.getElem?_cons_succ] at hget
      cases hc : c.name with
      | some nm2 =>
        simp only [assignIdsFrom, hc, List.map_cons, List.getElem?_cons_succ]
        exact ih (pos + 1) u i d nm hget hnm
      | none =>
        simp only [assignIdsFrom, hc, List.map_cons, List.getElem?_cons_succ]
        exact ih (pos + 1) (u + 1) i d nm hget hnm

lemma fixedTail_of_afterHead_cons (l : List ChoiceSpec) (b : ChoiceSpec)
    (bs : List ChoiceSpec) (h : afterHead l = b :: bs) :
    fixedTail l = tailRun l := by
  unfold tailRun fixedTail
  congr 1
  conv_lhs => rw [← split_head l]
  rw [List.reverse_append]
  apply takeWhile_append_of_not_all
  refine ⟨b, ?_, ?_⟩
  · rw [h]
    simp
  · exact dropWhile_head_false _ l b bs h

lemma all_fixed_layout (l : List ChoiceSpec) (hfix : ∀ c ∈ l, c.is_fixed = true)
    (seed : Nat) : shuffledLayout seed l = l := by
  have hafter : afterHead l = [] := by
    unfold afterHead
    exact List.dropWhile_eq_nil_iff.2 (by intro x hx; exact hfix x hx)
  have hhead : fixedHead l = l := by
    unfold fixedHead
    exact List.takeWhile_eq_self_iff.2 (by intro x hx; exact hfix x hx)
  have hmt : midRun l ++ tailRun l = [] := by rw [split_mid, hafter]
  have hmid : midRun l = [] := (List.append_eq_nil.1 hmt).1
  have htail : tailRun l = [] := (List.append_eq_nil.1 hmt).2
  have helig : eligible l = [] := by
    unfold eligible
    rw [hmid]
    rfl
  have hisl : islands l = [] := by
    unfold islands
    rw [hmid]
    rfl
  unfold shuffledLayout
  rw [helig, permute_nil, hisl, htail, hhead]
  simp

end Capa

namespace Capa

/-- C1: for the 4-choice group with shuffle enabled, seed 0 displays
Banana, Apple, Chocolate, Donut and seed 341 displays Donut, Apple, Banana,
Chocolate; for the 6-choice group, seed 0 displays Chocolate, Eggplant,
Apple, Banana, Zonut, Filet Mignon. -/
theorem golden_orderings :
    (renderOf group4s0).layout.map (·.content) = ["Banana", "Apple", "Chocolate", "Donut"]
    ∧ (renderOf group4s341).layout.map (·.content) = ["Donut", "Apple", "Banana", "Chocolate"]
    ∧ (renderOf group6s0).layout.map (·.content)
        = ["Chocolate", "Eggplant", "Apple", "Banana", "Zonut", "Filet Mignon"] := by
  refine ⟨?_, ?_, ?_⟩ <;> decide

/-- C2: for every shuffle-enabled ChoiceGroup and every seed, the multiset of
original ids of the rendered layout equals the multiset of original ids of
the input choices. -/
theorem layout_id_multiset_eq (g : ChoiceGroup) (h : g.shuffle_enabled = true) :
    ((renderOf g).layout.map (·.original_id) : Multiset String)
      = (g.choices.map (·.original_id) : Multiset String) := by
  rw [renderOf_layout_shuffle g h]
  exact Multiset.coe_eq_coe.2 ((shuffledLayout_perm g.seed g.choices).map _)

/-- Witness for layout_id_multiset_eq at the 4-choice seed-0 group. -/
theorem layout_id_multiset_eq_witness :
    ((renderOf group4s0).layout.map (·.original_id) : Multiset String)
      = (group4s0.choices.map (·.original_id) : Multiset String) :=
  layout_id_multiset_eq group4s0 rfl

/-- C3: for every input group the longest fixed prefix of the input is the
prefix of the rendered layout, the longest fixed suffix of the input is the
suffix of the rendered layout, and when every choice is fixed the layout
equals the input order. -/
theorem head_tail_preserved (g : ChoiceGroup) :
    (renderOf g).layout.take (fixedHead g.choices).length = fixedHead g.choices
    ∧ (renderOf g).layout.drop
        ((renderOf g).layout.length - (fixedTail g.choices).length) = fixedTail g.choices
    ∧ ((∀ c ∈ g.choices, c.is_fixed = true) → (renderOf g).layout = g.choices) := by
  by_cases hs : g.shuffle_enabled = true
  · rw [renderOf_layout_shuffle g hs]
    by_cases hall : ∀ c ∈ g.choices, c.is_fixed = true
    · rw [all_fixed_layout g.choices hall g.seed]
      refine ⟨take_takeWhile_length _ _, ?_, fun _ => rfl⟩
      have hgen := drop_append_of_suffix (remTail g.choices) (fixedTail g.choices)
      rw [split_tail] at hgen
      exact hgen
    · have hafter : afterHead g.choices ≠ [] := by
        intro hnil
        apply hall
        intro c hc
        have hnil' : g.choices.dropWhile (·.is_fixed) = [] := hnil
        exact List.dropWhile_eq_nil_iff.1 hnil' c hc
      obtain ⟨b, bs, hb⟩ : ∃ b bs, afterHead g.choices = b :: bs := by
        cases hh : afterHead g.choices with
        | nil => exact absurd hh hafter
        | cons b bs => exact ⟨b, bs, rfl⟩
      have hft : fixedTail g.choices = tailRun g.choices :=
        fixedTail_of_afterHead_cons g.choices b bs hb
      refine ⟨?_, ?_, fun hcontr => absurd hcontr hall⟩
      · have hassoc : shuffledLayout g.seed g.choices
            = fixedHead g.choices
              ++ (permute g.seed (eligible g.choices) ++ islands g.choices
                    ++ tailRun g.choices) := by
          simp [shuffledLayout, List.append_assoc]
        rw [hassoc]
        exact List.take_left ..
      · rw [hft]
        exact drop_append_of_suffix
          (fixedHead g.choices ++ permute g.seed (eligible g.choices) ++ islands g.choices)
          (tailRun g.choices)
  · have hs' : g.shuffle_enabled = false := by simpa using hs
    rw [renderOf_layout_plain g hs']
    refine ⟨take_takeWhile_length _ _, ?_, fun _ => rfl⟩
    have hgen := drop_append_of_suffix (remTail g.choices) (fixedTail g.choices)
    rw [split_tail] at hgen
    exact hgen

/-- Witness for head_tail_preserved at the all-fixed group. -/
theorem head_tail_preserved_witness :
    (renderOf allFixedGroup).layout = allFixedGroup.choices :=
  (head_tail_preserved allFixedGroup).2.2 (by decide)

/-- C4: in every shuffle-enabled render the islands, in original relative
order, sit immediately after the permuted eligible run and immediately before
the tail run; islands are excluded from the eligible set; and the island
scenario with seed 0 renders as A, Mid, Mid, C, D. -/
theorem island_relocation :
    (∀ g : ChoiceGroup, g.shuffle_enabled = true →
        (renderOf g).layout.drop
            ((fixedHead g.choices).length + (eligible g.choices).length)
          = islands g.choices ++ tailRun g.choices
        ∧ ∀ c ∈ islands g.choices, c ∉ eligible g.choices)
    ∧ (renderOf islandGroup).layout.map (·.content) = ["A", "Mid", "Mid", "C", "D"] := by
  constructor
  · intro g hs
    constructor
    · rw [renderOf_layout_shuffle g hs]
      have hassoc : shuffledLayout g.seed g.choices
          = (fixedHead g.choices ++ permute g.seed (eligible g.choices))
            ++ (islands g.choices ++ tailRun g.choices) := by
        simp [shuffledLayout, List.append_assoc]
      have hlen : (fixedHead g.choices ++ permute g.seed (eligible g.choices)).length
          = (fixedHead g.choices).length + (eligible g.choices).length := by
        rw [List.length_append, permute_length]
      rw [hassoc, ← hlen]
      exact List.drop_left ..
    · intro c hc hce
      have h1 : c.is_fixed = true := (List.mem_filter.1 hc).2
      have h2 : (!c.is_fixed) = true := (List.mem_filter.1 hce).2
      rw [h1] at h2
      simp at h2
  · decide

/-- Witness for island_relocation at the island group. -/
theorem island_relocation_witness :
    (renderOf islandGroup).layout.drop
        ((fixedHead islandGroup.choices).length + (eligible islandGroup.choices).length)
      = islands islandGroup.choices ++ tailRun islandGroup.choices :=
  (island_relocation.1 islandGroup rfl).1

/-- C5: rendering the same question instance twice gives the identical
result and leaves the instance unchanged, so the second call returns the
cached layout and mask without invoking the permutation generator again. -/
theorem render_idempotent (p : ProblemInstance) :
    render (render p).2 = render p := by
  unfold render
  by_cases hs : p.group.shuffle_enabled
  · cases hc : p.cache with
    | some r => simp [hs, hc]
    | none => simp [hs, hc]
  · simp [hs]

/-- Witness for render_idempotent at a fresh 4-choice instance. -/
theorem render_idempotent_witness :
    render (render (freshInstance group4s0)).2 = render (freshInstance group4s0) :=
  render_idempotent (freshInstance group4s0)

/-- Counterexample to C6 as stated: rendering a fresh shuffle-enabled
instance does not leave the externally shared parse tree unchanged. -/
theorem render_mutates_tree_cex :
    (render (freshInstance group4s0)).2.tree ≠ (freshInstance group4s0).tree := by
  decide

/-- C6 amended: the done marker lives on the shared parse tree, not in
responder-owned state: after the first render of a fresh instance the tree
carries the shuffle-done attribute exactly when shuffling is enabled. -/
theorem shuffle_done_marker_on_tree (g : ChoiceGroup) :
    ((render (freshInstance g)).2).tree.shuffleDone = g.shuffle_enabled := by
  unfold render freshInstance
  by_cases hs : g.shuffle_enabled <;> simp [hs]

/-- Witness for shuffle_done_marker_on_tree at the 4-choice group. -/
theorem shuffle_done_marker_on_tree_witness :
    ((render (freshInstance group4s0)).2).tree.shuffleDone = group4s0.shuffle_enabled :=
  shuffle_done_marker_on_tree group4s0

/-- C7: with shuffling disabled the layout is the input order unchanged, no
mask table is built, and rendering changes nothing in the instance (no done
marker, no cache). -/
theorem disabled_passthrough (g : ChoiceGroup) (h : g.shuffle_enabled = false) :
    (renderOf g).layout = g.choices
    ∧ (renderOf g).maskTable = none
    ∧ (render (freshInstance g)).2 = freshInstance g := by
  refine ⟨renderOf_layout_plain g h, ?_, ?_⟩
  · rw [renderOf_eq]
    simp [computeRender, h]
  · unfold render freshInstance
    simp [h]

/-- Witness for disabled_passthrough at the shuffle-disabled 4-choice
group. -/
theorem disabled_passthrough_witness :
    (renderOf group4off).layout = group4off.choices
    ∧ (renderOf group4off).maskTable = none
    ∧ (render (freshInstance group4off)).2 = freshInstance group4off :=
  disabled_passthrough group4off rfl

/-- C8: for every layout with distinct original ids, masking an id and
resolving the resulting token gives the id back: the two directions of the
mask table are mutually inverse. -/
theorem mask_roundtrip (layout : List ChoiceSpec)
    (hnd : (layout.map (·.original_id)).Nodup) :
    ∀ id ∈ layout.map (·.original_id),
      (mask_of (build_mask layout) id).bind (resolve_display (build_mask layout))
        = some id := by
  intro id hid
  exact mask_roundtrip_aux layout 0 hnd id hid

/-- Witness for mask_roundtrip at the rendered 4-choice layout. -/
theorem mask_roundtrip_witness :
    (mask_of (build_mask (renderOf group4s0).layout) "choice_0").bind
        (resolve_display (build_mask (renderOf group4s0).layout)) = some "choice_0" :=
  mask_roundtrip (renderOf group4s0).layout (by decide) "choice_0" (by decide)

/-- Counterexample to C9 as stated: on the custom-names group the ids the
registry assigns differ from ids whose positional default is derived from
original_position, because the default counter runs over unnamed choices
only; the actual ids are choice_aaa, choice_0, choice_1, choice_ddd. -/
theorem positional_id_cex :
    (assignIds customDefs).map (·.original_id)
        ≠ (assignIdsByPosition 0 customDefs).map (·.original_id)
    ∧ (assignIds customDefs).map (·.original_id)
        = ["choice_aaa", "choice_0", "choice_1", "choice_ddd"] := by
  constructor <;> decide

/-- C9 amended: a named choice gets choice_ followed by its authored name;
an unnamed choice gets choice_ followed by the count of unnamed choices
before it, so that in a group with no authored names the ids are the
positional defaults choice_0, choice_1, ... and are unique. -/
theorem choice_id_assignment (defs : List ChoiceDef) :
    ((∀ d ∈ defs, d.name = none) →
        (assignIds defs).map (·.original_id)
            = (List.range defs.length).map (fun k => "choice_" ++ Nat.repr k)
        ∧ ((assignIds defs).map (·.original_id)).Nodup)
    ∧ ∀ (i : Nat) (d : ChoiceDef) (nm : String), defs[i]? = some d → d.name = some nm →
        ((assignIds defs).map (·.original_id))[i]? = some ("choice_" ++ nm) := by
  constructor
  · intro hall
    have h := assignIdsFrom_all_unnamed defs 0 0 hall
    constructor
    · rw [List.range_eq_range']
      exact h
    · rw [show (assignIds defs).map (·.original_id) = _ from h]
      exact List.Nodup.map (append_repr_injective "choice_") (List.nodup_range' ..)
  · intro i d nm hget hnm
    exact assignIdsFrom_named defs 0 0 i d nm hget hnm

/-- Witness for choice_id_assignment at the unnamed fruit group and the
custom-names group. -/
theorem choice_id_assignment_witness :
    ((assignIds fruitDefs).map (·.original_id)
        = (List.range fruitDefs.length).map (fun k => "choice_" ++ Nat.repr k))
    ∧ ((assignIds customDefs).map (·.original_id))[0]? = some ("choice_" ++ "aaa") :=
  ⟨((choice_id_assignment fruitDefs).1 (by decide)).1,
   (choice_id_assignment customDefs).2 0 ⟨some "aaa", false, false, "Apple"⟩ "aaa" rfl rfl⟩

/-- C10: after the first render of a shuffle-enabled group the responder is
masked, unmask_order lists the original ids in displayed order (one per
choice, exactly the input ids, so no mask tokens), and the pinned test values
hold for the 4-choice, custom-names and single-choice groups. -/
theorem unmask_order_spec :
    (∀ g : ChoiceGroup, g.shuffle_enabled = true →
        is_masked (renderOf g) = true
        ∧ unmask_order (renderOf g) = (renderOf g).layout.map (·.original_id)
        ∧ (unmask_order (renderOf g) : Multiset String)
            = (g.choices.map (·.original_id) : Multiset String))
    ∧ unmask_order (renderOf group4s0) = ["choice_1", "choice_0", "choice_2", "choice_3"]
    ∧ unmask_order (renderOf customGroup)
        = ["choice_0", "choice_aaa", "choice_1", "choice_ddd"]
    ∧ unmask_order (renderOf singleGroup) = ["choice_0"] := by
  refine ⟨?_, by decide, by decide, by decide⟩
  intro g hs
  refine ⟨?_, rfl, ?_⟩
  · rw [renderOf_eq]
    simp [computeRender, hs, is_masked]
  · unfold unmask_order
    rw [renderOf_layout_shuffle g hs]
    exact Multiset.coe_eq_coe.2 ((shuffledLayout_perm g.seed g.choices).map _)

/-- Witness for unmask_order_spec at the 4-choice seed-0 group. -/
theorem unmask_order_spec_witness :
    is_masked (renderOf group4s0) = true :=
  (unmask_order_spec.1 group4s0 rfl).1

end Capa
